import Mathlib

/-!
# Verification of the dedupe-music duplicate-detection engine

Shallow embedding of the Go program `dedup-music.go` (and its variant in the
repository carrying `generateKey`), together with the near-duplicate merge
pass and filename-similarity function described only in the specification
(no such code exists in the source tree; those definitions are modelled from
the spec and marked as such).

Conventions of the embedding:
* Go's `map[string]*FileInfo` guarded by `fileMapMutex` is modelled as an
  association list `Index`; each locked check-then-act step of a worker is
  one application of `upsert`.  The interleaving of the workers' locked
  sections is a sequential order of `processPath` steps, so runs with
  different worker counts or arrival orders are permutations of the
  candidate list.
* `os.Stat` and `fileHash` outcomes are carried on each candidate as
  `Except String _` values (the worker only branches on success/failure and
  on the resulting size/hash).
* `filepath.Walk` is modelled by a list of walk events per directory: either
  a visited entry (with its `FileInfo` data) or an access error, which is a
  permission error or some other error, mirroring the walk callback.
-/

namespace DedupMusic

/-- `FileInfo` from `dedup-music.go`: name, path, hash, size and the list of
duplicate children (`json:"duplicates,omitempty"`). -/
inductive FileRec : Type where
  | mk (name path hash : String) (size : Int) (children : List FileRec)

def FileRec.name : FileRec → String
  | .mk n _ _ _ _ => n

def FileRec.path : FileRec → String
  | .mk _ p _ _ _ => p

def FileRec.hash : FileRec → String
  | .mk _ _ h _ _ => h

def FileRec.size : FileRec → Int
  | .mk _ _ _ s _ => s

def FileRec.children : FileRec → List FileRec
  | .mk _ _ _ _ cs => cs

/-- `existingFile.Children = append(existingFile.Children, fileInfo)`. -/
def attachChild : FileRec → FileRec → FileRec
  | .mk n p h s cs, c => .mk n p h s (cs ++ [c])

@[simp] theorem attachChild_name (r c : FileRec) : (attachChild r c).name = r.name := by
  cases r; rfl

@[simp] theorem attachChild_path (r c : FileRec) : (attachChild r c).path = r.path := by
  cases r; rfl

@[simp] theorem attachChild_hash (r c : FileRec) : (attachChild r c).hash = r.hash := by
  cases r; rfl

@[simp] theorem attachChild_size (r c : FileRec) : (attachChild r c).size = r.size := by
  cases r; rfl

@[simp] theorem attachChild_children (r c : FileRec) :
    (attachChild r c).children = r.children ++ [c] := by
  cases r; rfl

/-- `filepath.Base`: the last slash-separated element of the path
(modelled for the regular-file paths the walker produces). -/
def baseName (p : String) : String :=
  String.mk ((p.toList.reverse.takeWhile (fun c => c ≠ '/')).reverse)

/-- `filepath.Ext`: the suffix beginning at the final dot of the (base)
name, empty when there is no dot. -/
def fileExt (name : String) : String :=
  let rev := name.toList.reverse
  let suffix := rev.takeWhile (fun c => c ≠ '.')
  if suffix.length = rev.length then "" else String.mk ('.' :: suffix.reverse)

/-- `strings.ToLower`, character by character (the extensions the program
compares are ASCII). -/
def toLowerStr (s : String) : String :=
  String.mk (s.toList.map Char.toLower)

/-- The allowed-extension set built in `run`:
`{".wav", ".aif", ".aiff", ".mp3"}`. -/
def allowedExts : List String := [".wav", ".aif", ".aiff", ".mp3"]

/-- `generateKey` from the variant source (inlined in `dedup-music.go` as
`key := filename + "|" + hash`). -/
def generateKey (filename hash : String) : String :=
  filename ++ "|" ++ hash

/-- One candidate path taken from the channel, together with the outcomes
the worker observes for it: the `os.Stat` size and the `fileHash` digest. -/
structure Candidate : Type where
  path : String
  statResult : Except String Int
  hashResult : Except String String
deriving Repr

/-- The stat and the hash both succeeded. -/
def Candidate.ok (c : Candidate) : Bool :=
  c.statResult.isOk && c.hashResult.isOk

/-- The `FileInfo` value the worker builds for a (successful) candidate. -/
def Candidate.record (c : Candidate) : FileRec :=
  .mk (baseName c.path) c.path (c.hashResult.toOption.getD "")
    (c.statResult.toOption.getD 0) []

/-- The composite grouping key the worker computes for a candidate. -/
def Candidate.key (c : Candidate) : String :=
  generateKey (baseName c.path) (c.hashResult.toOption.getD "")

/-- The shared `fileMap`, as an association list from grouping key to the
root record for that key. -/
abbrev Index := List (String × FileRec)

/-- Lookup of a key in the index (`fileMap[key]`). -/
def findKey (k : String) : Index → Option FileRec
  | [] => none
  | (k', r) :: rest => if k' = k then some r else findKey k rest

/-- The locked check-then-act step of the worker: if the key exists, append
the new record to the existing root's children, otherwise insert the record
as a new root. -/
def upsert (m : Index) (k : String) (fi : FileRec) : Index :=
  match m with
  | [] => [(k, fi)]
  | (k', r) :: rest =>
    if k' = k then (k', attachChild r fi) :: rest
    else (k', r) :: upsert rest k fi

/-- One loop iteration of `worker` for one path: on stat or hash failure the
path is skipped (no index mutation), otherwise exactly one `upsert`. -/
def processPath (m : Index) (c : Candidate) : Index :=
  match c.statResult with
  | .error _ => m
  | .ok _ =>
    match c.hashResult with
    | .error _ => m
    | .ok _ => upsert m c.key c.record

/-- The whole worker phase: the interleaving of the workers' locked steps,
as a sequential fold over the candidates in arrival order. -/
def processAll (m : Index) : List Candidate → Index
  | [] => m
  | c :: rest => processAll (processPath m c) rest

/-- The error lines `worker` prints to stderr for one candidate. -/
def workerErrors (c : Candidate) : List String :=
  match c.statResult with
  | .error e => ["Error: Unable to stat file " ++ c.path ++ ": " ++ e]
  | .ok _ =>
    match c.hashResult with
    | .error e => ["Error: Unable to hash file " ++ c.path ++ ": " ++ e]
    | .ok _ => []

mutual

/-- All file paths reachable from a record: its own path and, recursively,
the paths of its duplicate children. -/
def FileRec.allPaths : FileRec → List String
  | .mk _ p _ _ cs => p :: allPathsList cs

/-- `allPaths` over a list of records. -/
def allPathsList : List FileRec → List String
  | [] => []
  | r :: rs => r.allPaths ++ allPathsList rs

end

/-- Every path appearing anywhere in the index (roots and children): the
contents of the final report. -/
def indexPaths (m : Index) : List String :=
  allPathsList (m.map Prod.snd)

/-! ## The candidate filter (`filepath.Walk` loop in `run`) -/

/-- What `filepath.Walk` reports for one visited path: the `os.FileInfo`
data the callback inspects. -/
structure FsEntry : Type where
  path : String
  isRegular : Bool
  size : Int
deriving DecidableEq, Repr

/-- One invocation of the walk callback: either a visited entry, or an
access error on a path (`err != nil`), which is or is not a permission
error. -/
inductive WalkItem : Type where
  | entry (e : FsEntry)
  | accessError (path : String) (isPermission : Bool) (msg : String)
deriving DecidableEq, Repr

/-- One source directory together with the walk events its traversal
produces. -/
structure SourceDir : Type where
  name : String
  items : List WalkItem
deriving DecidableEq, Repr

/-- The `run` walk-callback filter on a visited entry: skip non-regular
files and files below `minSizeBytes`; enqueue the path when the lower-cased
extension of the base name is in the allowed set. -/
def walkStep (minSizeBytes : Int) : WalkItem → Except String (Option String)
  | .accessError _ true _ => .ok none
  | .accessError p false msg => .error ("error accessing " ++ p ++ ": " ++ msg)
  | .entry e =>
    if !e.isRegular || e.size < minSizeBytes then .ok none
    else if toLowerStr (fileExt (baseName e.path)) ∈ allowedExts then .ok (some e.path)
    else .ok none

/-- `filepath.Walk` over one directory's events: the enqueued candidate
paths in order, or the first callback error (which aborts the walk). -/
def walkDir (minSizeBytes : Int) : List WalkItem → Except String (List String)
  | [] => .ok []
  | it :: rest =>
    match walkStep minSizeBytes it with
    | .error e => .error e
    | .ok none => walkDir minSizeBytes rest
    | .ok (some p) => (walkDir minSizeBytes rest).map (fun ps => p :: ps)

/-- The `for _, dir := range sourceDirs` loop of `run`: walk each directory
in order; a walk error is returned immediately, wrapped as
`error walking directory ...`. -/
def walkSources (minSizeBytes : Int) : List SourceDir → Except String (List String)
  | [] => .ok []
  | d :: rest =>
    match walkDir minSizeBytes d.items with
    | .error e => .error ("error walking directory " ++ d.name ++ ": " ++ e)
    | .ok ps => (walkSources minSizeBytes rest).map (fun qs => ps ++ qs)

/-- The directories whose walk `run` actually starts, in order: the loop
stops at the first directory whose walk fails. -/
def attemptedDirs (minSizeBytes : Int) : List SourceDir → List String
  | [] => []
  | d :: rest =>
    match walkDir minSizeBytes d.items with
    | .error _ => [d.name]
    | .ok _ => d.name :: attemptedDirs minSizeBytes rest

/-- The scanning-plus-fingerprinting part of `run`: walk all source
directories, then let the worker pool consume every enqueued path.  The
stat and hash outcomes each worker observes for a path are given by the
oracles `stat` and `hash`. -/
def runPipeline (minSizeBytes : Int) (dirs : List SourceDir)
    (stat : String → Except String Int) (hash : String → Except String String) :
    Except String Index :=
  match walkSources minSizeBytes dirs with
  | .error e => .error e
  | .ok ps => .ok (processAll [] (ps.map (fun p => ⟨p, stat p, hash p⟩)))

/-! ## Deletion (`deleteFiles`) and the tail of `run` -/

/-- The inner child loop of `deleteFiles`: `os.RemoveAll` each child path,
returning at the first failure with the per-file error message. -/
def deleteChildren (rm : String → Except String Unit) : List FileRec → Except String Unit
  | [] => .ok ()
  | c :: rest =>
    match rm c.path with
    | .error e => .error ("error deleting file " ++ c.path ++ ": " ++ e)
    | .ok _ => deleteChildren rm rest

/-- `deleteFiles`: for each root, remove the root's file then each child's
file; the first failing removal makes the whole call return that file's
error. -/
def deleteFiles (rm : String → Except String Unit) : List FileRec → Except String Unit
  | [] => .ok ()
  | f :: rest =>
    match rm f.path with
    | .error e => .error ("error deleting file " ++ f.path ++ ": " ++ e)
    | .ok _ =>
      match deleteChildren rm f.children with
      | .error e => .error e
      | .ok _ => deleteFiles rm rest

/-- The child paths on which the child loop of `deleteFiles` invokes
`os.RemoveAll`, in order (it stops after the first failure). -/
def deleteChildrenAttempts (rm : String → Except String Unit) : List FileRec → List String
  | [] => []
  | c :: rest =>
    match rm c.path with
    | .error _ => [c.path]
    | .ok _ => c.path :: deleteChildrenAttempts rm rest

/-- The paths on which `deleteFiles` actually invokes `os.RemoveAll`, in
order (it stops after the first failure). -/
def deleteAttempts (rm : String → Except String Unit) : List FileRec → List String
  | [] => []
  | f :: rest =>
    match rm f.path with
    | .error _ => [f.path]
    | .ok _ =>
      match deleteChildren rm f.children with
      | .error _ => f.path :: deleteChildrenAttempts rm f.children
      | .ok _ => f.path :: (deleteChildrenAttempts rm f.children ++ deleteAttempts rm rest)

/-- The tail of `run` after the worker barrier: optionally delete, and only
then write the report.  Returns the reported forest, or the error that
aborted the run (in which case no report is written). -/
def runAfterScan (deleteEnabled : Bool) (rm : String → Except String Unit)
    (output : List FileRec) : Except String (List FileRec) :=
  if deleteEnabled then
    match deleteFiles rm output with
    | .error e => .error ("error deleting files: " ++ e)
    | .ok _ => .ok output
  else .ok output

/-- The observable ordered actions of the tail of `run` on the finalized
forest: the copy loop, then (when enabled) the deletions performed by
`deleteFiles`, then the write of the JSON report. -/
inductive RunEvent : Type where
  | copyEvent (path : String)
  | deleteEvent (path : String)
  | reportEvent
deriving DecidableEq, Repr

/-- The paths `deleteFiles` removes for one root: the root's file and then
its children's files. -/
def deleteTraversal (files : List FileRec) : List String :=
  files.flatMap (fun f => f.path :: f.children.map FileRec.path)

/-- The ordered event trace of the tail of `run` when every operation
succeeds: copies (when a target directory is set), then deletions (when
enabled), then the report write. -/
def runEvents (targetDirSet deleteEnabled : Bool) (output : List FileRec) :
    List RunEvent :=
  (if targetDirSet then output.map (fun f => RunEvent.copyEvent f.path) else []) ++
    (if deleteEnabled then (deleteTraversal output).map RunEvent.deleteEvent else []) ++
    [RunEvent.reportEvent]

/-! ## Similarity and the near-duplicate merge pass

Neither a similarity function nor a merge pass exists anywhere in the
source tree; both are modelled from the specification. -/

/-- Modelled from the spec: the letter sequence of a filename with the
separators space, `_`, `-`, `.` removed (no such function exists in the
source). -/
def letterSeq (s : String) : List Char :=
  s.toList.filter (fun c => ¬ (c = ' ' ∨ c = '_' ∨ c = '-' ∨ c = '.'))

/-- Modelled from the spec: for each character of the first sequence, count
it as a match when it occurs anywhere in the second sequence (no such
function exists in the source). -/
def matchCount (l1 l2 : List Char) : Nat :=
  (l1.filter (fun c => c ∈ l2)).length

/-- Modelled from the spec: filename similarity is matches divided by the
longer letter-sequence length, with 0/0 defined as 0 (no such function
exists in the source; rational division by zero is 0). -/
def similarity (a b : String) : ℚ :=
  (matchCount (letterSeq a) (letterSeq b) : ℚ) /
    (max (letterSeq a).length (letterSeq b).length : ℚ)

/-- Modelled from the spec: the merge-pass condition on two roots — equal
sizes and name similarity at least the fixed 0.5 threshold. -/
def matchRoot (A B : FileRec) : Bool :=
  A.size == B.size && decide ((1 : ℚ)/2 ≤ similarity A.name B.name)

/-- Modelled from the spec: scan the roots after `A`, attaching every root
that matches `A` (together with all of its children) as a child of `A` and
removing it from the root list; non-matching roots are kept. -/
def mergeInto (A : FileRec) : List FileRec → FileRec × List FileRec
  | [] => (A, [])
  | B :: rest =>
    if matchRoot A B then mergeInto (attachChild A B) rest
    else
      let p := mergeInto A rest
      (p.1, B :: p.2)

theorem mergeInto_snd_length (A : FileRec) (l : List FileRec) :
    (mergeInto A l).2.length ≤ l.length := by
  induction l generalizing A with
  | nil => simp [mergeInto]
  | cons B rest ih =>
    by_cases h : matchRoot A B
    · simp only [mergeInto, h, if_pos]
      exact le_trans (ih (attachChild A B)) (Nat.le_succ _)
    · simp only [mergeInto, h, if_neg, not_false_iff]
      simpa using ih A

/-- Modelled from the spec: the single post-barrier near-duplicate merge
pass — fold every later matching root into the current first root, then
recurse on the remaining roots. -/
def mergePass : List FileRec → List FileRec
  | [] => []
  | A :: rest =>
    let p := mergeInto A rest
    p.1 :: mergePass p.2
termination_by l => l.length
decreasing_by
  simp only [List.length_cons]
  exact Nat.lt_succ_of_le (mergeInto_snd_length _ _)

/-! ## Worker upsert behaviour (C1) -/

theorem processPath_ok {c : Candidate} (hok : c.ok = true) (m : Index) :
    processPath m c = upsert m c.key c.record := by
  obtain ⟨p, st, hs⟩ := c
  cases st with
  | error e => simp [Candidate.ok, Except.isOk, Except.toBool] at hok
  | ok s =>
    cases hs with
    | error e => simp [Candidate.ok, Except.isOk, Except.toBool] at hok
    | ok h => rfl

theorem processPath_fail {c : Candidate} (hok : c.ok = false) (m : Index) :
    processPath m c = m := by
  obtain ⟨p, st, hs⟩ := c
  cases st with
  | error e => rfl
  | ok s =>
    cases hs with
    | error e => rfl
    | ok h => simp [Candidate.ok, Except.isOk, Except.toBool] at hok

theorem upsert_absent (m : Index) (k : String) (fi : FileRec)
    (h : findKey k m = none) : upsert m k fi = m ++ [(k, fi)] := by
  induction m with
  | nil => rfl
  | cons kr rest ih =>
    obtain ⟨k', r⟩ := kr
    by_cases hk : k' = k
    · simp [findKey, hk] at h
    · simp only [findKey, if_neg hk] at h
      simp [upsert, if_neg hk, ih h]

theorem findKey_upsert_self (m : Index) (k : String) (fi : FileRec) {r : FileRec}
    (h : findKey k m = some r) :
    findKey k (upsert m k fi) = some (attachChild r fi) := by
  induction m with
  | nil => simp [findKey] at h
  | cons kr rest ih =>
    obtain ⟨k', r'⟩ := kr
    by_cases hk : k' = k
    · simp only [findKey, if_pos hk] at h
      cases h
      simp [upsert, findKey, if_pos hk]
    · simp only [findKey, if_neg hk] at h
      simp [upsert, findKey, if_neg hk, ih h]

theorem findKey_upsert_ne (m : Index) (k k' : String) (fi : FileRec)
    (h : k' ≠ k) : findKey k' (upsert m k fi) = findKey k' m := by
  induction m with
  | nil => simp [upsert, findKey, Ne.symm h]
  | cons kr rest ih =>
    obtain ⟨k₀, r⟩ := kr
    by_cases hk : k₀ = k
    · subst hk
      simp [upsert, findKey, Ne.symm h]
    · simp [upsert, findKey, if_neg hk, ih]

theorem length_upsert_present (m : Index) (k : String) (fi : FileRec) {r : FileRec}
    (h : findKey k m = some r) : (upsert m k fi).length = m.length := by
  induction m with
  | nil => simp [findKey] at h
  | cons kr rest ih =>
    obtain ⟨k', r'⟩ := kr
    by_cases hk : k' = k
    · simp [upsert, if_pos hk]
    · simp only [findKey, if_neg hk] at h
      simp [upsert, if_neg hk, ih h]

/-- C1: for every candidate whose stat and hash succeed, the worker
performs exactly one index mutation — a single `upsert` under the lock: if
the grouping key is absent, the new record is inserted as a root; if it is
present, the record is appended as a child of the existing root, leaving
every other key and the number of roots unchanged. -/
theorem worker_single_upsert (m : Index) (c : Candidate) (hok : c.ok = true) :
    processPath m c = upsert m c.key c.record ∧
    (findKey c.key m = none → processPath m c = m ++ [(c.key, c.record)]) ∧
    (∀ r, findKey c.key m = some r →
      findKey c.key (processPath m c) = some (attachChild r c.record) ∧
      (∀ k', k' ≠ c.key → findKey k' (processPath m c) = findKey k' m) ∧
      (processPath m c).length = m.length) := by
  refine ⟨processPath_ok hok m, ?_, ?_⟩
  · intro h
    rw [processPath_ok hok m, upsert_absent m _ _ h]
  · intro r h
    rw [processPath_ok hok m]
    exact ⟨findKey_upsert_self m _ _ h, fun k' hk => findKey_upsert_ne m _ k' _ hk,
      length_upsert_present m _ _ h⟩

/-- Witness for C1 at a concrete candidate and the empty index. -/
theorem worker_single_upsert_witness :
    (Candidate.mk "/m/a.mp3" (.ok 5) (.ok "d41d8cd9")).ok = true ∧
    processPath [] (Candidate.mk "/m/a.mp3" (.ok 5) (.ok "d41d8cd9")) =
      [((Candidate.mk "/m/a.mp3" (.ok 5) (.ok "d41d8cd9")).key,
        (Candidate.mk "/m/a.mp3" (.ok 5) (.ok "d41d8cd9")).record)] := by
  refine ⟨rfl, ?_⟩
  have h := (worker_single_upsert [] (Candidate.mk "/m/a.mp3" (.ok 5) (.ok "d41d8cd9")) rfl).2.1 rfl
  simpa using h

/-! ## Failure handling in the worker (C7) -/

theorem allPaths_def (r : FileRec) : r.allPaths = r.path :: allPathsList r.children := by
  cases r; rfl

theorem allPathsList_append (xs ys : List FileRec) :
    allPathsList (xs ++ ys) = allPathsList xs ++ allPathsList ys := by
  induction xs with
  | nil => rfl
  | cons r rs ih => simp [allPathsList, ih]

theorem indexPaths_cons (kr : String × FileRec) (rest : Index) :
    indexPaths (kr :: rest) = kr.2.allPaths ++ indexPaths rest := rfl

theorem record_allPaths (c : Candidate) : c.record.allPaths = [c.path] := rfl

theorem mem_indexPaths_upsert {p : String} (m : Index) (k : String) (fi : FileRec)
    (h : p ∈ indexPaths (upsert m k fi)) : p ∈ indexPaths m ∨ p ∈ fi.allPaths := by
  induction m with
  | nil =>
    right
    simpa [upsert, indexPaths, allPathsList] using h
  | cons kr rest ih =>
    obtain ⟨k', r⟩ := kr
    by_cases hk : k' = k
    · rw [show upsert ((k', r) :: rest) k fi = (k', attachChild r fi) :: rest by
        simp [upsert, hk]] at h
      rw [indexPaths_cons] at h
      rcases List.mem_append.1 h with h' | h'
      · rw [allPaths_def] at h'
        simp only [attachChild_path, attachChild_children] at h'
        rcases List.mem_cons.1 h' with h' | h'
        · left
          rw [indexPaths_cons]
          refine List.mem_append.2 (.inl ?_)
          rw [allPaths_def, h']
          exact List.mem_cons_self _ _
        · rw [allPathsList_append] at h'
          rcases List.mem_append.1 h' with h'' | h''
          · left
            rw [indexPaths_cons]
            exact List.mem_append.2 (.inl (by rw [allPaths_def]; exact List.mem_cons_of_mem _ h''))
          · right
            simpa [allPathsList] using h''
      · left
        rw [indexPaths_cons]
        exact List.mem_append.2 (.inr h')
    · rw [show upsert ((k', r) :: rest) k fi = (k', r) :: upsert rest k fi by
        simp [upsert, hk]] at h
      rw [indexPaths_cons] at h
      rcases List.mem_append.1 h with h' | h'
      · left; rw [indexPaths_cons]; exact List.mem_append.2 (.inl h')
      · rcases ih h' with h'' | h''
        · left; rw [indexPaths_cons]; exact List.mem_append.2 (.inr h'')
        · right; exact h''

theorem mem_indexPaths_processAll {p : String} (l : List Candidate) (m : Index)
    (h : p ∈ indexPaths (processAll m l)) :
    p ∈ indexPaths m ∨ ∃ c ∈ l, c.path = p ∧ c.ok = true := by
  induction l generalizing m with
  | nil => exact .inl h
  | cons c rest ih =>
    have h' := ih (processPath m c) h
    rcases h' with h' | h'
    · by_cases hok : c.ok = true
      · rw [processPath_ok hok m] at h'
        rcases mem_indexPaths_upsert _ _ _ h' with h'' | h''
        · exact .inl h''
        · right
          refine ⟨c, List.mem_cons_self c rest, ?_, hok⟩
          rw [record_allPaths] at h''
          exact (List.mem_singleton.1 h'').symm
      · rw [processPath_fail (by simpa using hok) m] at h'
        exact .inl h'
    · obtain ⟨c', hc', hp, hok⟩ := h'
      exact .inr ⟨c', List.mem_cons_of_mem c hc', hp, hok⟩

/-- C7: when stat or hashing fails for a candidate path, the worker logs
the path and the error and skips the path without mutating the index, and
the final report (every path in the index, roots and children) contains
only successfully fingerprinted files. -/
theorem worker_failure_skips (m : Index) (c : Candidate) (l : List Candidate) :
    (c.ok = false →
      processPath m c = m ∧
      ∃ e, workerErrors c = ["Error: Unable to stat file " ++ c.path ++ ": " ++ e] ∨
        workerErrors c = ["Error: Unable to hash file " ++ c.path ++ ": " ++ e]) ∧
    (∀ p ∈ indexPaths (processAll [] l), ∃ c' ∈ l, c'.path = p ∧ c'.ok = true) := by
  constructor
  · intro hfail
    refine ⟨processPath_fail hfail m, ?_⟩
    obtain ⟨p, st, hs⟩ := c
    cases st with
    | error e => exact ⟨e, .inl rfl⟩
    | ok s =>
      cases hs with
      | error e => exact ⟨e, .inr rfl⟩
      | ok h => simp [Candidate.ok, Except.isOk, Except.toBool] at hfail
  · intro p hp
    rcases mem_indexPaths_processAll l [] hp with h | h
    · simp [indexPaths, allPathsList] at h
    · exact h

/-- Witness for C7: a stat failure at a concrete candidate, and a
concrete report containing exactly the one successful candidate. -/
theorem worker_failure_skips_witness :
    ((Candidate.mk "/m/bad.mp3" (.error "eacces") (.ok "h")).ok = false ∧
      processPath [] (Candidate.mk "/m/bad.mp3" (.error "eacces") (.ok "h")) = []) ∧
    (∀ p ∈ indexPaths (processAll []
        [Candidate.mk "/m/a.mp3" (.ok 5) (.ok "h1")]),
      ∃ c' ∈ [Candidate.mk "/m/a.mp3" (.ok 5) (.ok "h1")],
        c'.path = p ∧ c'.ok = true) := by
  refine ⟨⟨rfl, ?_⟩, ?_⟩
  · exact (worker_failure_skips [] (Candidate.mk "/m/bad.mp3" (.error "eacces") (.ok "h"))
      []).1 rfl |>.1
  · exact (worker_failure_skips [] (Candidate.mk "/m/bad.mp3" (.error "eacces") (.ok "h"))
      [Candidate.mk "/m/a.mp3" (.ok 5) (.ok "h1")]).2

/-! ## The candidate filter feeding the report (C3) -/

theorem walkStep_some {minSize : Int} {it : WalkItem} {p : String}
    (h : walkStep minSize it = .ok (some p)) :
    ∃ e : FsEntry, it = .entry e ∧ e.path = p ∧ e.isRegular = true ∧
      minSize ≤ e.size ∧ toLowerStr (fileExt (baseName p)) ∈ allowedExts := by
  cases it with
  | accessError q perm msg => cases perm <;> simp [walkStep] at h
  | entry e =>
    simp only [walkStep] at h
    split at h
    · simp at h
    · rename_i hcond
      split at h
      · rename_i hext
        have hp : e.path = p := by simpa using h
        simp only [Bool.or_eq_true, Bool.not_eq_true', decide_eq_true_eq, not_or] at hcond
        subst hp
        exact ⟨e, rfl, rfl, by simpa using hcond.1, not_lt.mp hcond.2, hext⟩
      · simp at h

theorem walkDir_ok {minSize : Int} {items : List WalkItem} {ps : List String}
    (h : walkDir minSize items = .ok ps) :
    ∀ p ∈ ps, ∃ e : FsEntry, WalkItem.entry e ∈ items ∧ e.path = p ∧
      e.isRegular = true ∧ minSize ≤ e.size ∧
      toLowerStr (fileExt (baseName p)) ∈ allowedExts := by
  induction items generalizing ps with
  | nil =>
    simp only [walkDir, Except.ok.injEq] at h
    subst h
    intro p hp
    simp at hp
  | cons it rest ih =>
    cases hws : walkStep minSize it with
    | error e => simp [walkDir, hws] at h
    | ok o =>
      cases o with
      | none =>
        simp only [walkDir, hws] at h
        intro p hp
        obtain ⟨e, he, h2⟩ := ih h p hp
        exact ⟨e, List.mem_cons_of_mem _ he, h2⟩
      | some q =>
        simp only [walkDir, hws] at h
        cases hwd : walkDir minSize rest with
        | error e => simp [hwd, Except.map] at h
        | ok qs =>
          rw [hwd] at h
          have hps : ps = q :: qs := by
            simpa [Except.map] using h.symm
          subst hps
          intro p hp
          rcases List.mem_cons.1 hp with hp | hp
          · subst hp
            obtain ⟨e, heq, h2⟩ := walkStep_some hws
            refine ⟨e, ?_, h2⟩
            rw [heq]
            exact List.mem_cons_self _ _
          · obtain ⟨e, he, h2⟩ := ih hwd p hp
            exact ⟨e, List.mem_cons_of_mem _ he, h2⟩

theorem walkSources_ok {minSize : Int} {dirs : List SourceDir} {ps : List String}
    (h : walkSources minSize dirs = .ok ps) :
    ∀ p ∈ ps, ∃ d ∈ dirs, ∃ e : FsEntry, WalkItem.entry e ∈ d.items ∧ e.path = p ∧
      e.isRegular = true ∧ minSize ≤ e.size ∧
      toLowerStr (fileExt (baseName p)) ∈ allowedExts := by
  induction dirs generalizing ps with
  | nil =>
    simp only [walkSources, Except.ok.injEq] at h
    subst h
    intro p hp
    simp at hp
  | cons d rest ih =>
    cases hwd : walkDir minSize d.items with
    | error e => simp [walkSources, hwd] at h
    | ok qs =>
      cases hws : walkSources minSize rest with
      | error e => simp [walkSources, hwd, hws, Except.map] at h
      | ok rs =>
        have hps : ps = qs ++ rs := by
          simp only [walkSources, hwd, hws, Except.map, Except.ok.injEq] at h
          exact h.symm
        subst hps
        intro p hp
        rcases List.mem_append.1 hp with hp | hp
        · obtain ⟨e, he, h2⟩ := walkDir_ok hwd p hp
          exact ⟨d, List.mem_cons_self _ _, e, he, h2⟩
        · obtain ⟨d', hd', h2⟩ := ih hws p hp
          exact ⟨d', List.mem_cons_of_mem _ hd', h2⟩

/-- C3: every path in the report (root or child) was, at enqueue time, a
regular file of size at least the configured minimum whose lower-cased
extension is in the allowed audio set; filtered-out files never appear. -/
theorem report_paths_filtered {minSize : Int} {dirs : List SourceDir}
    {stat : String → Except String Int} {hash : String → Except String String}
    {idx : Index} (hrun : runPipeline minSize dirs stat hash = .ok idx) :
    ∀ p ∈ indexPaths idx, ∃ d ∈ dirs, ∃ e : FsEntry,
      WalkItem.entry e ∈ d.items ∧ e.path = p ∧ e.isRegular = true ∧
      minSize ≤ e.size ∧ toLowerStr (fileExt (baseName p)) ∈ allowedExts := by
  intro p hp
  cases hws : walkSources minSize dirs with
  | error e => simp [runPipeline, hws] at hrun
  | ok ps =>
    have hidx : idx = processAll [] (ps.map fun q => ⟨q, stat q, hash q⟩) := by
      simp only [runPipeline, hws, Except.ok.injEq] at hrun
      exact hrun.symm
    subst hidx
    rcases mem_indexPaths_processAll _ _ hp with h | h
    · simp [indexPaths, allPathsList] at h
    · obtain ⟨c, hc, hcp, hok⟩ := h
      obtain ⟨q, hq, hced⟩ := List.mem_map.1 hc
      have hqp : q = p := by rw [← hcp, ← hced]
      subst hqp
      exact walkSources_ok hws q hq

/-- Witness for C3: one directory with one regular `.mp3` file above the
minimum size; the pipeline reports it and it passed the filter. -/
theorem report_paths_filtered_witness :
    runPipeline 1 [SourceDir.mk "/music" [WalkItem.entry (FsEntry.mk "/music/a.mp3" true 100)]]
        (fun _ => Except.ok 100) (fun _ => Except.ok "h") =
      .ok [("a.mp3|h", FileRec.mk "a.mp3" "/music/a.mp3" "h" 100 [])] ∧
    (∃ d ∈ [SourceDir.mk "/music" [WalkItem.entry (FsEntry.mk "/music/a.mp3" true 100)]],
      ∃ e : FsEntry, WalkItem.entry e ∈ d.items ∧ e.path = "/music/a.mp3" ∧
        e.isRegular = true ∧ (1 : Int) ≤ e.size ∧
        toLowerStr (fileExt (baseName "/music/a.mp3")) ∈ allowedExts) := by
  have hrun : runPipeline 1
      [SourceDir.mk "/music" [WalkItem.entry (FsEntry.mk "/music/a.mp3" true 100)]]
      (fun _ => Except.ok 100) (fun _ => Except.ok "h") =
      .ok [("a.mp3|h", FileRec.mk "a.mp3" "/music/a.mp3" "h" 100 [])] := rfl
  refine ⟨hrun, report_paths_filtered hrun "/music/a.mp3" ?_⟩
  show "/music/a.mp3" ∈ indexPaths [("a.mp3|h", FileRec.mk "a.mp3" "/music/a.mp3" "h" 100 [])]
  simp [indexPaths, allPathsList, allPaths_def, FileRec.path, FileRec.children]

/-! ## The grouping-key policy (C5) -/

theorem String.append_cancel_right {a b c : String} (h : a ++ c = b ++ c) : a = b := by
  have hd : a.data ++ c.data = b.data ++ c.data := by
    have := congrArg String.data h
    simpa [String.data_append] using this
  exact congrArg String.mk (List.append_cancel_right hd)

theorem generateKey_inj_name {n1 n2 h : String}
    (he : generateKey n1 h = generateKey n2 h) : n1 = n2 := by
  have h1 : n1 ++ ("|" ++ h) = n2 ++ ("|" ++ h) := by
    simpa [generateKey, String.append_assoc] using he
  have hd : n1.data ++ ("|" ++ h).data = n2.data ++ ("|" ++ h).data := by
    have := congrArg String.data h1
    simpa [String.data_append] using this
  exact congrArg String.mk (List.append_cancel_right hd)

/-- The invariant the worker maintains on the index: every entry's key is
the `generateKey` of its root, and every child of a root was inserted under
that same key. -/
def wellKeyed (m : Index) : Prop :=
  ∀ kr ∈ m, kr.1 = generateKey kr.2.name kr.2.hash ∧
    ∀ c ∈ kr.2.children, generateKey c.name c.hash = kr.1

theorem record_key (c : Candidate) :
    c.key = generateKey c.record.name c.record.hash := rfl

theorem record_children (c : Candidate) : c.record.children = [] := rfl

theorem wellKeyed_nil : wellKeyed [] := by
  intro kr hkr
  simp at hkr

theorem wellKeyed_upsert {m : Index} (hm : wellKeyed m) (fi : FileRec)
    (hfi : fi.children = []) :
    wellKeyed (upsert m (generateKey fi.name fi.hash) fi) := by
  induction m with
  | nil =>
    intro kr hkr
    simp only [upsert, List.mem_singleton] at hkr
    subst hkr
    exact ⟨rfl, by simp [hfi]⟩
  | cons kr₀ rest ih =>
    obtain ⟨k', r⟩ := kr₀
    by_cases hk : k' = generateKey fi.name fi.hash
    · rw [show upsert ((k', r) :: rest) (generateKey fi.name fi.hash) fi =
          (k', attachChild r fi) :: rest by simp [upsert, hk]]
      intro kr hkr
      rcases List.mem_cons.1 hkr with hkr | hkr
      · subst hkr
        obtain ⟨hkey, hch⟩ := hm (k', r) (List.mem_cons_self _ _)
        refine ⟨by simpa using hkey, ?_⟩
        intro c hc
        simp only [attachChild_children] at hc
        rcases List.mem_append.1 hc with hc | hc
        · simpa using hch c hc
        · rw [List.mem_singleton.1 hc]
          simpa using hk.symm
      · exact hm kr (List.mem_cons_of_mem _ hkr)
    · rw [show upsert ((k', r) :: rest) (generateKey fi.name fi.hash) fi =
          (k', r) :: upsert rest (generateKey fi.name fi.hash) fi by simp [upsert, hk]]
      intro kr hkr
      rcases List.mem_cons.1 hkr with hkr | hkr
      · subst hkr
        exact hm (k', r) (List.mem_cons_self _ _)
      · exact ih (fun kr' hkr' => hm kr' (List.mem_cons_of_mem _ hkr')) kr hkr

theorem wellKeyed_processPath {m : Index} (hm : wellKeyed m) (c : Candidate) :
    wellKeyed (processPath m c) := by
  by_cases hok : c.ok = true
  · rw [processPath_ok hok m, record_key c]
    exact wellKeyed_upsert hm c.record (record_children c)
  · rw [processPath_fail (by simpa using hok) m]
    exact hm

theorem wellKeyed_processAll {l : List Candidate} {m : Index} (hm : wellKeyed m) :
    wellKeyed (processAll m l) := by
  induction l generalizing m with
  | nil => exact hm
  | cons c rest ih => exact ih (wellKeyed_processPath hm c)

theorem findKey_upsert_self_isSome (m : Index) (k : String) (fi : FileRec) :
    (findKey k (upsert m k fi)).isSome = true := by
  induction m with
  | nil => simp [upsert, findKey]
  | cons kr rest ih =>
    obtain ⟨k', r⟩ := kr
    by_cases hk : k' = k
    · simp [upsert, findKey, hk]
    · simp [upsert, findKey, if_neg hk, ih]

theorem findKey_upsert_isSome {m : Index} {k : String} (k' : String) (fi : FileRec)
    (h : (findKey k m).isSome = true) :
    (findKey k (upsert m k' fi)).isSome = true := by
  by_cases hk : k = k'
  · subst hk
    exact findKey_upsert_self_isSome m k fi
  · rwa [findKey_upsert_ne m k' k fi hk]

theorem findKey_processPath_isSome {m : Index} {k : String} (c : Candidate)
    (h : (findKey k m).isSome = true) :
    (findKey k (processPath m c)).isSome = true := by
  by_cases hok : c.ok = true
  · rw [processPath_ok hok m]
    exact findKey_upsert_isSome c.key c.record h
  · rwa [processPath_fail (by simpa using hok) m]

theorem findKey_processAll_isSome {l : List Candidate} {m : Index} {k : String}
    (h : (findKey k m).isSome = true) :
    (findKey k (processAll m l)).isSome = true := by
  induction l generalizing m with
  | nil => exact h
  | cons c rest ih => exact ih (findKey_processPath_isSome c h)

theorem key_mem_processAll {l : List Candidate} {c : Candidate} (m : Index)
    (hc : c ∈ l) (hok : c.ok = true) :
    (findKey c.key (processAll m l)).isSome = true := by
  induction l generalizing m with
  | nil => simp at hc
  | cons c' rest ih =>
    rcases List.mem_cons.1 hc with hc | hc
    · subst hc
      show (findKey c.key (processAll (processPath m c) rest)).isSome = true
      refine findKey_processAll_isSome ?_
      rw [processPath_ok hok m]
      exact findKey_upsert_self_isSome m c.key c.record
    · exact ih (processPath m c') hc

/-- C5: the grouping key is always the base filename joined with `|` and
the hash (the name+hash policy).  Hence two successfully fingerprinted
files with identical content but different base filenames get distinct
keys, both keys are present as separate roots of the final index, and in
that index no child ever has the same hash as its root while carrying a
different name — so neither file is attached as a duplicate of the other. -/
theorem name_hash_policy (l : List Candidate) (c1 c2 : Candidate)
    (h1 : c1 ∈ l) (h2 : c2 ∈ l) (hok1 : c1.ok = true) (hok2 : c2.ok = true)
    (hhash : c1.hashResult = c2.hashResult)
    (hname : baseName c1.path ≠ baseName c2.path) :
    c1.key = baseName c1.path ++ "|" ++ (c1.hashResult.toOption.getD "") ∧
    c1.key ≠ c2.key ∧
    (findKey c1.key (processAll [] l)).isSome = true ∧
    (findKey c2.key (processAll [] l)).isSome = true ∧
    ∀ kr ∈ processAll [] l, ∀ c ∈ kr.2.children,
      c.hash = kr.2.hash → c.name = kr.2.name := by
  refine ⟨rfl, ?_, key_mem_processAll [] h1 hok1, key_mem_processAll [] h2 hok2, ?_⟩
  · intro hkey
    apply hname
    apply generateKey_inj_name
    calc generateKey (baseName c1.path) (c2.hashResult.toOption.getD "")
        = c1.key := by rw [← hhash]; rfl
      _ = c2.key := hkey
      _ = generateKey (baseName c2.path) (c2.hashResult.toOption.getD "") := rfl
  · intro kr hkr c hc hch
    obtain ⟨hkey, hchild⟩ := wellKeyed_processAll wellKeyed_nil kr hkr
    have := (hchild c hc).trans hkey
    rw [hch] at this
    exact generateKey_inj_name this

/-- Witness for C5: two same-content files with different base names end
up as two distinct roots. -/
theorem name_hash_policy_witness :
    (Candidate.mk "/m/a.mp3" (.ok 5) (.ok "h")).key ≠
      (Candidate.mk "/m/b.mp3" (.ok 5) (.ok "h")).key ∧
    (findKey (Candidate.mk "/m/a.mp3" (.ok 5) (.ok "h")).key
      (processAll [] [Candidate.mk "/m/a.mp3" (.ok 5) (.ok "h"),
        Candidate.mk "/m/b.mp3" (.ok 5) (.ok "h")])).isSome = true ∧
    (findKey (Candidate.mk "/m/b.mp3" (.ok 5) (.ok "h")).key
      (processAll [] [Candidate.mk "/m/a.mp3" (.ok 5) (.ok "h"),
        Candidate.mk "/m/b.mp3" (.ok 5) (.ok "h")])).isSome = true := by
  have h := name_hash_policy
    [Candidate.mk "/m/a.mp3" (.ok 5) (.ok "h"), Candidate.mk "/m/b.mp3" (.ok 5) (.ok "h")]
    (Candidate.mk "/m/a.mp3" (.ok 5) (.ok "h")) (Candidate.mk "/m/b.mp3" (.ok 5) (.ok "h"))
    (List.mem_cons_self _ _) (List.mem_cons_of_mem _ (List.mem_cons_self _ _))
    rfl rfl rfl (by decide)
  exact ⟨h.2.1, h.2.2.1, h.2.2.2.1⟩

/-! ## Order-independence of the grouping (C6) -/

/-- The files of one report group, identified by path: the root's file and
its duplicate children's files. -/
def memberPaths (r : FileRec) : List String :=
  r.path :: r.children.map FileRec.path

/-- The file at path `p` belongs to the group stored under key `k`. -/
def memGroup (m : Index) (k : String) (p : String) : Prop :=
  ∃ kr ∈ m, kr.1 = k ∧ p ∈ memberPaths kr.2

/-- The files at paths `p` and `q` are in the same root's duplicate set. -/
def sameGroup (m : Index) (p q : String) : Prop :=
  ∃ k, memGroup m k p ∧ memGroup m k q

theorem memGroup_nil (k p : String) : ¬ memGroup [] k p := by
  rintro ⟨kr, hkr, -⟩
  simp at hkr

theorem mem_memberPaths_attachChild {p : String} {fi : FileRec} (r : FileRec) :
    p ∈ memberPaths (attachChild r fi) ↔ p ∈ memberPaths r ∨ p = fi.path := by
  simp [memberPaths, attachChild_path, attachChild_children, List.mem_cons,
    List.mem_append, or_assoc]

theorem memGroup_upsert (m : Index) (k k' : String) (fi : FileRec) (p : String)
    (hfi : fi.children = []) :
    memGroup (upsert m k' fi) k p ↔ memGroup m k p ∨ (k' = k ∧ p = fi.path) := by
  induction m with
  | nil =>
    simp only [upsert, memGroup, List.mem_singleton]
    constructor
    · rintro ⟨kr, hkr, hk, hp⟩
      subst hkr
      right
      refine ⟨hk, ?_⟩
      simpa [memberPaths, hfi] using hp
    · rintro (⟨kr, hkr, -⟩ | ⟨hk, hp⟩)
      · simp at hkr
      · exact ⟨(k', fi), rfl, hk, by simp [memberPaths, hfi, hp]⟩
  | cons kr₀ rest ih =>
    obtain ⟨k₀, r⟩ := kr₀
    by_cases hk : k₀ = k'
    · subst hk
      rw [show upsert ((k₀, r) :: rest) k₀ fi = (k₀, attachChild r fi) :: rest by
        simp [upsert]]
      simp only [memGroup, List.mem_cons]
      constructor
      · rintro ⟨kr, hkr, hkk, hp⟩
        rcases hkr with hkr | hkr
        · subst hkr
          rcases (mem_memberPaths_attachChild r).1 hp with hp | hp
          · exact .inl ⟨(k₀, r), .inl rfl, hkk, hp⟩
          · exact .inr ⟨hkk, hp⟩
        · exact .inl ⟨kr, .inr hkr, hkk, hp⟩
      · rintro (⟨kr, hkr, hkk, hp⟩ | ⟨hkk, hp⟩)
        · rcases hkr with hkr | hkr
          · subst hkr
            exact ⟨(k₀, attachChild r fi), .inl rfl, hkk,
              (mem_memberPaths_attachChild r).2 (.inl hp)⟩
          · exact ⟨kr, .inr hkr, hkk, hp⟩
        · exact ⟨(k₀, attachChild r fi), .inl rfl, hkk,
            (mem_memberPaths_attachChild r).2 (.inr hp)⟩
    · rw [show upsert ((k₀, r) :: rest) k' fi = (k₀, r) :: upsert rest k' fi by
        simp [upsert, hk]]
      simp only [memGroup, List.mem_cons]
      constructor
      · rintro ⟨kr, hkr, hkk, hp⟩
        rcases hkr with hkr | hkr
        · exact .inl ⟨kr, .inl hkr, hkk, hp⟩
        · rcases ih.1 ⟨kr, hkr, hkk, hp⟩ with h | h
          · obtain ⟨kr', hkr', hkk', hp'⟩ := h
            exact .inl ⟨kr', .inr hkr', hkk', hp'⟩
          · exact .inr h
      · rintro (⟨kr, hkr, hkk, hp⟩ | ⟨hkk, hp⟩)
        · rcases hkr with hkr | hkr
          · exact ⟨kr, .inl hkr, hkk, hp⟩
          · obtain ⟨kr', hkr', hkk', hp'⟩ := ih.2 (.inl ⟨kr, hkr, hkk, hp⟩)
            exact ⟨kr', .inr hkr', hkk', hp'⟩
        · obtain ⟨kr', hkr', hkk', hp'⟩ := ih.2 (.inr ⟨hkk, hp⟩)
          exact ⟨kr', .inr hkr', hkk', hp'⟩

theorem record_path (c : Candidate) : c.record.path = c.path := rfl

theorem memGroup_processPath (m : Index) (c : Candidate) (k p : String) :
    memGroup (processPath m c) k p ↔
      memGroup m k p ∨ (c.ok = true ∧ c.key = k ∧ p = c.path) := by
  by_cases hok : c.ok = true
  · rw [processPath_ok hok m, memGroup_upsert m k c.key c.record p (record_children c)]
    simp [hok, record_path, eq_comm (a := c.key)]
  · rw [processPath_fail (by simpa using hok) m]
    simp [hok]

theorem memGroup_processAll (l : List Candidate) (m : Index) (k p : String) :
    memGroup (processAll m l) k p ↔
      memGroup m k p ∨ ∃ c ∈ l, c.ok = true ∧ c.key = k ∧ p = c.path := by
  induction l generalizing m with
  | nil => simp [processAll]
  | cons c rest ih =>
    show memGroup (processAll (processPath m c) rest) k p ↔ _
    rw [ih (processPath m c), memGroup_processPath m c k p]
    constructor
    · rintro ((h | h) | ⟨c', hc', h⟩)
      · exact .inl h
      · exact .inr ⟨c, List.mem_cons_self _ _, h⟩
      · exact .inr ⟨c', List.mem_cons_of_mem _ hc', h⟩
    · rintro (h | ⟨c', hc', h⟩)
      · exact .inl (.inl h)
      · rcases List.mem_cons.1 hc' with hc' | hc'
        · subst hc'
          exact .inl (.inr h)
        · exact .inr ⟨c', hc', h⟩

/-- C6: grouping is independent of processing order and worker count.  Two
successful candidates with the same key always land in the same root's
duplicate set, and for any permutation of the candidate list (any
interleaving of the workers' locked steps) the same-group relation of the
resulting index is identical; only the root choice may differ. -/
theorem grouping_order_independent (l l' : List Candidate) (hperm : l.Perm l')
    (c1 c2 : Candidate) (h1 : c1 ∈ l) (h2 : c2 ∈ l)
    (hok1 : c1.ok = true) (hok2 : c2.ok = true) :
    (c1.key = c2.key →
      sameGroup (processAll [] l) c1.path c2.path ∧
      sameGroup (processAll [] l') c1.path c2.path) ∧
    (∀ p q, sameGroup (processAll [] l) p q ↔ sameGroup (processAll [] l') p q) := by
  constructor
  · intro hkey
    constructor
    · exact ⟨c1.key,
        (memGroup_processAll l [] c1.key c1.path).2 (.inr ⟨c1, h1, hok1, rfl, rfl⟩),
        (memGroup_processAll l [] c1.key c2.path).2 (.inr ⟨c2, h2, hok2, hkey.symm, rfl⟩)⟩
    · exact ⟨c1.key,
        (memGroup_processAll l' [] c1.key c1.path).2
          (.inr ⟨c1, hperm.mem_iff.1 h1, hok1, rfl, rfl⟩),
        (memGroup_processAll l' [] c1.key c2.path).2
          (.inr ⟨c2, hperm.mem_iff.1 h2, hok2, hkey.symm, rfl⟩)⟩
  · intro p q
    constructor
    · rintro ⟨k, hp, hq⟩
      refine ⟨k, ?_, ?_⟩
      · rcases (memGroup_processAll l [] k p).1 hp with h | ⟨c, hc, h⟩
        · exact absurd h (memGroup_nil k p)
        · exact (memGroup_processAll l' [] k p).2 (.inr ⟨c, hperm.mem_iff.1 hc, h⟩)
      · rcases (memGroup_processAll l [] k q).1 hq with h | ⟨c, hc, h⟩
        · exact absurd h (memGroup_nil k q)
        · exact (memGroup_processAll l' [] k q).2 (.inr ⟨c, hperm.mem_iff.1 hc, h⟩)
    · rintro ⟨k, hp, hq⟩
      refine ⟨k, ?_, ?_⟩
      · rcases (memGroup_processAll l' [] k p).1 hp with h | ⟨c, hc, h⟩
        · exact absurd h (memGroup_nil k p)
        · exact (memGroup_processAll l [] k p).2 (.inr ⟨c, hperm.mem_iff.2 hc, h⟩)
      · rcases (memGroup_processAll l' [] k q).1 hq with h | ⟨c, hc, h⟩
        · exact absurd h (memGroup_nil k q)
        · exact (memGroup_processAll l [] k q).2 (.inr ⟨c, hperm.mem_iff.2 hc, h⟩)

/-- Witness for C6: two same-key candidates processed in both orders end
up in the same root's duplicate set both times. -/
theorem grouping_order_independent_witness :
    sameGroup (processAll [] [Candidate.mk "/x/s.mp3" (.ok 5) (.ok "h"),
        Candidate.mk "/y/s.mp3" (.ok 5) (.ok "h")]) "/x/s.mp3" "/y/s.mp3" ∧
    sameGroup (processAll [] [Candidate.mk "/y/s.mp3" (.ok 5) (.ok "h"),
        Candidate.mk "/x/s.mp3" (.ok 5) (.ok "h")]) "/x/s.mp3" "/y/s.mp3" := by
  have h := grouping_order_independent
    [Candidate.mk "/x/s.mp3" (.ok 5) (.ok "h"), Candidate.mk "/y/s.mp3" (.ok 5) (.ok "h")]
    [Candidate.mk "/y/s.mp3" (.ok 5) (.ok "h"), Candidate.mk "/x/s.mp3" (.ok 5) (.ok "h")]
    (List.Perm.swap _ _ _)
    (Candidate.mk "/x/s.mp3" (.ok 5) (.ok "h")) (Candidate.mk "/y/s.mp3" (.ok 5) (.ok "h"))
    (List.mem_cons_self _ _) (List.mem_cons_of_mem _ (List.mem_cons_self _ _))
    rfl rfl
  exact h.1 rfl


/-! ## Similarity function properties (C4) -/

theorem matchCount_self (l : List Char) : matchCount l l = l.length := by
  unfold matchCount
  rw [List.filter_length_eq_length.2]
  intro x hx
  simpa using hx

/-- C4 (modelled from the spec; no similarity code exists in the source):
similarity of a name with itself is 1 whenever its letter sequence is
non-empty; similarity of two names with empty letter sequences is 0 (the
0/0 case is defined, not an error); and in general similarity is the match
count divided by the longer sequence length. -/
theorem similarity_props (a b : String) :
    (letterSeq a ≠ [] → similarity a a = 1) ∧
    (letterSeq a = [] → letterSeq b = [] → similarity a b = 0) ∧
    similarity a b = (matchCount (letterSeq a) (letterSeq b) : ℚ) /
      (max (letterSeq a).length (letterSeq b).length : ℚ) := by
  refine ⟨?_, ?_, rfl⟩
  · intro h
    have hlen : (letterSeq a).length ≠ 0 := by simpa using h
    rw [similarity, matchCount_self, max_self]
    exact div_self (by exact_mod_cast hlen)
  · intro ha hb
    simp [similarity, ha, hb, matchCount]

/-- Witness for C4: `similarity "ab" "ab" = 1` and two all-separator names
have similarity 0. -/
theorem similarity_props_witness :
    (letterSeq "ab" ≠ [] ∧ similarity "ab" "ab" = 1) ∧
    (letterSeq "." = [] ∧ letterSeq "_-" = [] ∧ similarity "." "_-" = 0) := by
  refine ⟨⟨by decide, (similarity_props "ab" "ab").1 (by decide)⟩,
    ⟨by decide, by decide, (similarity_props "." "_-").2.1 (by decide) (by decide)⟩⟩


/-! ## The near-duplicate merge pass (C2) -/

theorem matchRoot_attachChild (A B C : FileRec) :
    matchRoot (attachChild A B) C = matchRoot A C := by
  simp [matchRoot]

/-- Folding a list of absorbed roots into `A` as children, in order. -/
def attachAll (A : FileRec) (bs : List FileRec) : FileRec := bs.foldl attachChild A

theorem attachAll_path (bs : List FileRec) (A : FileRec) :
    (attachAll A bs).path = A.path := by
  induction bs generalizing A with
  | nil => rfl
  | cons b bs ih =>
    show (attachAll (attachChild A b) bs).path = A.path
    rw [ih (attachChild A b), attachChild_path]

theorem attachAll_children (bs : List FileRec) (A : FileRec) :
    (attachAll A bs).children = A.children ++ bs := by
  induction bs generalizing A with
  | nil => simp [attachAll]
  | cons b bs ih =>
    show (attachAll (attachChild A b) bs).children = _
    rw [ih (attachChild A b), attachChild_children]
    simp

theorem mergeInto_eq (A : FileRec) (l : List FileRec) :
    mergeInto A l =
      (attachAll A (l.filter fun B => matchRoot A B),
       l.filter fun B => ! matchRoot A B) := by
  induction l generalizing A with
  | nil => simp [mergeInto, attachAll]
  | cons B rest ih =>
    by_cases h : matchRoot A B = true
    · have e1 : mergeInto A (B :: rest) = mergeInto (attachChild A B) rest := by
        simp [mergeInto, h]
      rw [e1, ih (attachChild A B)]
      simp only [matchRoot_attachChild]
      have hpos : (B :: rest).filter (fun C => matchRoot A C) =
          B :: rest.filter (fun C => matchRoot A C) := List.filter_cons_of_pos h
      have hneg : (B :: rest).filter (fun C => ! matchRoot A C) =
          rest.filter (fun C => ! matchRoot A C) := List.filter_cons_of_neg (by simp [h])
      rw [hpos, hneg]
      rfl
    · have e1 : mergeInto A (B :: rest) =
          ((mergeInto A rest).1, B :: (mergeInto A rest).2) := by
        simp [mergeInto, h]
      rw [e1, ih A]
      have hb : matchRoot A B = false := by simpa using h
      have hpos : (B :: rest).filter (fun C => matchRoot A C) =
          rest.filter (fun C => matchRoot A C) := List.filter_cons_of_neg (by simp [hb])
      have hneg : (B :: rest).filter (fun C => ! matchRoot A C) =
          B :: rest.filter (fun C => ! matchRoot A C) := List.filter_cons_of_pos (by simp [hb])
      rw [hpos, hneg]

theorem mergePass_cons (A : FileRec) (rest : List FileRec) :
    mergePass (A :: rest) = (mergeInto A rest).1 :: mergePass (mergeInto A rest).2 := by
  rw [mergePass]

theorem mergePass_path_of_mem : ∀ (n : Nat) (l : List FileRec), l.length ≤ n →
    ∀ r ∈ mergePass l, ∃ rr ∈ l, r.path = rr.path := by
  intro n
  induction n with
  | zero =>
    intro l hl r hr
    have hnil : l = [] := List.length_eq_zero.1 (Nat.le_zero.1 hl)
    subst hnil
    simp [mergePass] at hr
  | succ n ih =>
    intro l hl r hr
    match l with
    | [] => simp [mergePass] at hr
    | A :: rest =>
      rw [mergePass_cons] at hr
      rcases List.mem_cons.1 hr with hr | hr
      · refine ⟨A, List.mem_cons_self _ _, ?_⟩
        rw [hr, mergeInto_eq]
        exact attachAll_path _ _
      · have hlen : (mergeInto A rest).2.length ≤ n :=
          le_trans (mergeInto_snd_length A rest)
            (Nat.succ_le_succ_iff.1 (by simpa using hl))
        obtain ⟨rr, hrr, hpath⟩ := ih _ hlen r hr
        have hrest : rr ∈ rest := by
          rw [mergeInto_eq] at hrr
          exact List.mem_of_mem_filter hrr
        exact ⟨rr, List.mem_cons_of_mem _ hrest, hpath⟩

theorem mergePass_topPath_subset {l : List FileRec} {p : String}
    (hp : p ∈ (mergePass l).map FileRec.path) : p ∈ l.map FileRec.path := by
  obtain ⟨r, hr, hrp⟩ := List.mem_map.1 hp
  obtain ⟨rr, hrr, hpath⟩ := mergePass_path_of_mem l.length l le_rfl r hr
  rw [← hrp, hpath]
  exact List.mem_map_of_mem _ hrr

/-- C2 as amended (modelled from the spec; no merge pass exists in the
source): when the merge pass scans the current first root `A` against the
remaining root list, every remaining root `B` of the same size with name
similarity at least 0.5 is attached — together with all of its children —
as a child of the merged `A` exactly once, is removed from the root list,
and never reappears as a top-level entry of the merge pass's output.  (Not
every size/similarity-matching pair is merged: a root absorbed by an
earlier scanning root is gone before a later matching root scans.) -/
theorem merge_pass_absorbs (A B : FileRec) (rest : List FileRec)
    (hB : B ∈ rest) (hm : matchRoot A B = true)
    (hnodup : ((A :: rest).map FileRec.path).Nodup)
    (hch : B.path ∉ A.children.map FileRec.path) :
    mergePass (A :: rest) =
      attachAll A (rest.filter fun C => matchRoot A C) ::
        mergePass (rest.filter fun C => ! matchRoot A C) ∧
    (attachAll A (rest.filter fun C => matchRoot A C)).path = A.path ∧
    B ∈ (attachAll A (rest.filter fun C => matchRoot A C)).children ∧
    ((attachAll A (rest.filter fun C => matchRoot A C)).children.map
        FileRec.path).count B.path = 1 ∧
    B.path ∉ (mergePass (A :: rest)).map FileRec.path := by
  have heq : mergePass (A :: rest) =
      attachAll A (rest.filter fun C => matchRoot A C) ::
        mergePass (rest.filter fun C => ! matchRoot A C) := by
    rw [mergePass_cons, mergeInto_eq]
  have hnodup2 : (A.path :: rest.map FileRec.path).Nodup := by
    rw [List.map_cons] at hnodup
    exact hnodup
  have hAnot : A.path ∉ rest.map FileRec.path := (List.nodup_cons.1 hnodup2).1
  have hrestnodup : (rest.map FileRec.path).Nodup := (List.nodup_cons.1 hnodup2).2
  have hBmem : B.path ∈ rest.map FileRec.path := List.mem_map_of_mem _ hB
  have hcount1 : (rest.map FileRec.path).count B.path = 1 := by
    have hle := List.nodup_iff_count_le_one.1 hrestnodup B.path
    have hge : 0 < (rest.map FileRec.path).count B.path := List.count_pos_iff.2 hBmem
    omega
  have hperm : List.Perm
      (((rest.filter fun C => matchRoot A C) ++
        (rest.filter fun C => ! matchRoot A C)).map FileRec.path)
      (rest.map FileRec.path) :=
    (List.filter_append_perm _ rest).map FileRec.path
  have hsplit : ((rest.filter fun C => matchRoot A C).map FileRec.path).count B.path +
      ((rest.filter fun C => ! matchRoot A C).map FileRec.path).count B.path = 1 := by
    have := hperm.count_eq B.path
    rw [hcount1] at this
    rw [← this, List.map_append, List.count_append]
  have hmemP : B ∈ rest.filter fun C => matchRoot A C := List.mem_filter.2 ⟨hB, hm⟩
  have hcntP : 0 < ((rest.filter fun C => matchRoot A C).map FileRec.path).count B.path :=
    List.count_pos_iff.2 (List.mem_map_of_mem _ hmemP)
  have hcntPeq : ((rest.filter fun C => matchRoot A C).map FileRec.path).count B.path = 1 := by
    omega
  have hcntNeq : ((rest.filter fun C => ! matchRoot A C).map FileRec.path).count B.path = 0 := by
    omega
  refine ⟨heq, attachAll_path _ _, ?_, ?_, ?_⟩
  · rw [attachAll_children]
    exact List.mem_append.2 (.inr hmemP)
  · rw [attachAll_children, List.map_append, List.count_append,
      List.count_eq_zero_of_not_mem hch, hcntPeq]
  · rw [heq]
    intro hmem
    rw [List.map_cons] at hmem
    rcases List.mem_cons.1 hmem with hmem | hmem
    · rw [attachAll_path] at hmem
      exact hAnot (hmem ▸ hBmem)
    · have := mergePass_topPath_subset hmem
      have : 0 < ((rest.filter fun C => ! matchRoot A C).map FileRec.path).count B.path :=
        List.count_pos_iff.2 this
      omega

/-- Witness for C2: two equal-size roots with similar names, the second is
absorbed as a child of the first and leaves the top level. -/
theorem merge_pass_absorbs_witness :
    FileRec.mk "song (copy).mp3" "/b/song (copy).mp3" "h2" 5 [] ∈
      (attachAll (FileRec.mk "song.mp3" "/a/song.mp3" "h1" 5 [])
        ([FileRec.mk "song (copy).mp3" "/b/song (copy).mp3" "h2" 5 []].filter
          fun C => matchRoot (FileRec.mk "song.mp3" "/a/song.mp3" "h1" 5 []) C)).children ∧
    (FileRec.mk "song (copy).mp3" "/b/song (copy).mp3" "h2" 5 []).path ∉
      (mergePass [FileRec.mk "song.mp3" "/a/song.mp3" "h1" 5 [],
        FileRec.mk "song (copy).mp3" "/b/song (copy).mp3" "h2" 5 []]).map FileRec.path := by
  have hsim : (2:ℚ)⁻¹ ≤ similarity "song.mp3" "song (copy).mp3" := by
    unfold similarity
    rw [show matchCount (letterSeq "song.mp3") (letterSeq "song (copy).mp3") = 7 from
        by decide,
      show (letterSeq "song.mp3").length = 7 from by decide,
      show (letterSeq "song (copy).mp3").length = 13 from by decide]
    norm_num
  have hm : matchRoot (FileRec.mk "song.mp3" "/a/song.mp3" "h1" 5 [])
      (FileRec.mk "song (copy).mp3" "/b/song (copy).mp3" "h2" 5 []) = true := by
    simp [matchRoot, FileRec.size, FileRec.name, hsim]
  have h := merge_pass_absorbs
    (FileRec.mk "song.mp3" "/a/song.mp3" "h1" 5 [])
    (FileRec.mk "song (copy).mp3" "/b/song (copy).mp3" "h2" 5 [])
    [FileRec.mk "song (copy).mp3" "/b/song (copy).mp3" "h2" 5 []]
    (List.mem_cons_self _ _) hm
    (by simp [FileRec.path])
    (by simp [FileRec.children])
  exact ⟨h.2.2.1, h.2.2.2.2⟩

/-- Counterexample to C2 as stated: three equal-size roots with identical
names all satisfy the merge condition pairwise, but the third root is
absorbed by the first scanning root, not by the second — so the
size/similarity-matching pair (second root, third root) is never merged:
wherever the second root's record appears in the output it has no
children. -/
theorem merge_pairwise_counterexample :
    matchRoot (FileRec.mk "s.mp3" "/2/s.mp3" "h2" 5 [])
      (FileRec.mk "s.mp3" "/3/s.mp3" "h3" 5 []) = true ∧
    mergePass [FileRec.mk "s.mp3" "/1/s.mp3" "h1" 5 [],
        FileRec.mk "s.mp3" "/2/s.mp3" "h2" 5 [],
        FileRec.mk "s.mp3" "/3/s.mp3" "h3" 5 []] =
      [FileRec.mk "s.mp3" "/1/s.mp3" "h1" 5
        [FileRec.mk "s.mp3" "/2/s.mp3" "h2" 5 [],
          FileRec.mk "s.mp3" "/3/s.mp3" "h3" 5 []]] ∧
    ∀ r ∈ mergePass [FileRec.mk "s.mp3" "/1/s.mp3" "h1" 5 [],
        FileRec.mk "s.mp3" "/2/s.mp3" "h2" 5 [],
        FileRec.mk "s.mp3" "/3/s.mp3" "h3" 5 []],
      ∀ c ∈ r.children, c.path = "/2/s.mp3" → c.children = [] := by
  have hsim : (2:ℚ)⁻¹ ≤ similarity "s.mp3" "s.mp3" := by
    unfold similarity
    rw [show matchCount (letterSeq "s.mp3") (letterSeq "s.mp3") = 4 from by decide,
      show (letterSeq "s.mp3").length = 4 from by decide]
    norm_num
  have hm : ∀ p1 q1 p2 q2 : String, matchRoot (FileRec.mk "s.mp3" p1 q1 5 [])
      (FileRec.mk "s.mp3" p2 q2 5 []) = true := by
    intro p1 q1 p2 q2
    simp [matchRoot, FileRec.size, FileRec.name, hsim]
  have hnil : mergePass ([] : List FileRec) = [] := by rw [mergePass]
  have heq : mergePass [FileRec.mk "s.mp3" "/1/s.mp3" "h1" 5 [],
      FileRec.mk "s.mp3" "/2/s.mp3" "h2" 5 [],
      FileRec.mk "s.mp3" "/3/s.mp3" "h3" 5 []] =
      [FileRec.mk "s.mp3" "/1/s.mp3" "h1" 5
        [FileRec.mk "s.mp3" "/2/s.mp3" "h2" 5 [],
          FileRec.mk "s.mp3" "/3/s.mp3" "h3" 5 []]] := by
    rw [mergePass_cons, mergeInto_eq]
    simp [hm, attachAll, attachChild, hnil]
  refine ⟨hm _ _ _ _, heq, ?_⟩
  intro r hr c hc hcp
  rw [heq] at hr
  rw [List.mem_singleton.1 hr] at hc
  simp only [FileRec.children] at hc
  rcases List.mem_cons.1 hc with hc | hc
  · rw [hc]
    rfl
  · rw [List.mem_singleton.1 hc] at hcp
    simp [FileRec.path] at hcp


/-! ## Deletion error handling (C8) -/

theorem deleteChildren_ok {rm : String → Except String Unit} {cs : List FileRec}
    (h : ∀ c ∈ cs, rm c.path = .ok ()) :
    deleteChildren rm cs = .ok () ∧
    deleteChildrenAttempts rm cs = cs.map FileRec.path := by
  induction cs with
  | nil => exact ⟨rfl, rfl⟩
  | cons c rest ih =>
    have hc := h c (List.mem_cons_self _ _)
    have hrest := ih (fun c' hc' => h c' (List.mem_cons_of_mem _ hc'))
    constructor
    · simp only [deleteChildren, hc]
      exact hrest.1
    · simp only [deleteChildrenAttempts, hc, List.map_cons]
      rw [hrest.2]

/-- Counterexample to C8: when deleting the first of two roots fails, the
operation stops at that first failure — the second file is never attempted,
errors are not aggregated — and the run aborts, so the report is not
written. -/
theorem delete_stops_at_first_counterexample :
    deleteFiles (fun p => if p = "/r1.mp3" then .error "disk" else .ok ())
        [FileRec.mk "r1.mp3" "/r1.mp3" "h1" 5 [], FileRec.mk "r2.mp3" "/r2.mp3" "h2" 5 []] =
      .error "error deleting file /r1.mp3: disk" ∧
    deleteAttempts (fun p => if p = "/r1.mp3" then .error "disk" else .ok ())
        [FileRec.mk "r1.mp3" "/r1.mp3" "h1" 5 [], FileRec.mk "r2.mp3" "/r2.mp3" "h2" 5 []] =
      ["/r1.mp3"] ∧
    runAfterScan true (fun p => if p = "/r1.mp3" then .error "disk" else .ok ())
        [FileRec.mk "r1.mp3" "/r1.mp3" "h1" 5 [], FileRec.mk "r2.mp3" "/r2.mp3" "h2" 5 []] =
      .error "error deleting files: error deleting file /r1.mp3: disk" :=
  ⟨rfl, rfl, rfl⟩

/-- C8 amended: a deletion error on a file is reported for that file but
immediately aborts the whole delete operation — files after the first
failure are never attempted and errors are not aggregated — and the run
returns the error, so the report is not written. -/
theorem deleteFiles_stops_at_first (rm : String → Except String Unit)
    (pre : List FileRec) (f : FileRec) (rest : List FileRec) {e : String}
    (hpre : ∀ g ∈ pre, rm g.path = .ok () ∧ ∀ c ∈ g.children, rm c.path = .ok ())
    (hf : rm f.path = .error e) :
    deleteFiles rm (pre ++ f :: rest) =
      .error ("error deleting file " ++ f.path ++ ": " ++ e) ∧
    deleteAttempts rm (pre ++ f :: rest) = deleteTraversal pre ++ [f.path] ∧
    runAfterScan true rm (pre ++ f :: rest) =
      .error ("error deleting files: " ++
        ("error deleting file " ++ f.path ++ ": " ++ e)) := by
  induction pre with
  | nil =>
    refine ⟨?_, ?_, ?_⟩
    · simp [deleteFiles, hf]
    · simp [deleteAttempts, hf, deleteTraversal]
    · simp [runAfterScan, deleteFiles, hf]
  | cons g pre ih =>
    have hg := hpre g (List.mem_cons_self _ _)
    have ihh := ih (fun g' hg' => hpre g' (List.mem_cons_of_mem _ hg'))
    have hdc := deleteChildren_ok hg.2
    refine ⟨?_, ?_, ?_⟩
    · show deleteFiles rm (g :: (pre ++ f :: rest)) = _
      simp only [deleteFiles, hg.1, hdc.1]
      exact ihh.1
    · show deleteAttempts rm (g :: (pre ++ f :: rest)) = _
      simp only [deleteAttempts, hg.1, hdc.1, hdc.2]
      rw [ihh.2.1]
      simp [deleteTraversal]
    · show runAfterScan true rm (g :: (pre ++ f :: rest)) = _
      have hdf : deleteFiles rm (g :: (pre ++ f :: rest)) =
          .error ("error deleting file " ++ f.path ++ ": " ++ e) := by
        simp only [deleteFiles, hg.1, hdc.1]
        exact ihh.1
      simp [runAfterScan, hdf]

/-- Witness for C8's amended statement: the first root deletes fine, the
second fails, and the delete stops right there. -/
theorem deleteFiles_stops_at_first_witness :
    deleteFiles (fun p => if p = "/r1.mp3" then .error "disk" else .ok ())
        [FileRec.mk "r0.mp3" "/r0.mp3" "h0" 5 [], FileRec.mk "r1.mp3" "/r1.mp3" "h1" 5 [],
          FileRec.mk "r2.mp3" "/r2.mp3" "h2" 5 []] =
      .error "error deleting file /r1.mp3: disk" ∧
    deleteAttempts (fun p => if p = "/r1.mp3" then .error "disk" else .ok ())
        [FileRec.mk "r0.mp3" "/r0.mp3" "h0" 5 [], FileRec.mk "r1.mp3" "/r1.mp3" "h1" 5 [],
          FileRec.mk "r2.mp3" "/r2.mp3" "h2" 5 []] =
      ["/r0.mp3", "/r1.mp3"] := by
  have h := deleteFiles_stops_at_first
    (fun p => if p = "/r1.mp3" then .error "disk" else .ok ())
    [FileRec.mk "r0.mp3" "/r0.mp3" "h0" 5 []]
    (FileRec.mk "r1.mp3" "/r1.mp3" "h1" 5 [])
    [FileRec.mk "r2.mp3" "/r2.mp3" "h2" 5 []]
    (by
      intro g hg
      rw [List.mem_singleton.1 hg]
      exact ⟨rfl, by intro c hc; simp [FileRec.children] at hc⟩)
    rfl
  exact ⟨h.1, h.2.1⟩

/-! ## Directory-walk failure behaviour (C9) -/

/-- Counterexample to C9: with two source directories where the first fails
with a non-permission error, `run` fails immediately and the second
directory is never attempted. -/
theorem walk_abort_counterexample :
    walkSources 1 [SourceDir.mk "d1" [WalkItem.accessError "/d1/x" false "io error"],
        SourceDir.mk "d2" [WalkItem.entry (FsEntry.mk "/d2/a.mp3" true 100)]] =
      .error "error walking directory d1: error accessing /d1/x: io error" ∧
    attemptedDirs 1 [SourceDir.mk "d1" [WalkItem.accessError "/d1/x" false "io error"],
        SourceDir.mk "d2" [WalkItem.entry (FsEntry.mk "/d2/a.mp3" true 100)]] = ["d1"] ∧
    "d2" ∉ attemptedDirs 1 [SourceDir.mk "d1" [WalkItem.accessError "/d1/x" false "io error"],
        SourceDir.mk "d2" [WalkItem.entry (FsEntry.mk "/d2/a.mp3" true 100)]] :=
  ⟨rfl, rfl, by decide⟩

/-- C9 amended: a source directory whose walk fails with a non-permission
error is surfaced as a run-level failure immediately, and the remaining
source directories are not attempted; a permission error on a subpath is
swallowed and the walk continues past it. -/
theorem walk_error_immediate {minSize : Int} (d : SourceDir) (rest : List SourceDir)
    {e : String} (hfail : walkDir minSize d.items = .error e) :
    (walkSources minSize (d :: rest) =
        .error ("error walking directory " ++ d.name ++ ": " ++ e) ∧
      attemptedDirs minSize (d :: rest) = [d.name]) ∧
    (∀ (p msg : String) (items : List WalkItem),
      walkStep minSize (WalkItem.accessError p true msg) = .ok none ∧
      walkDir minSize (WalkItem.accessError p true msg :: items) =
        walkDir minSize items) := by
  refine ⟨⟨?_, ?_⟩, ?_⟩
  · simp [walkSources, hfail]
  · simp [attemptedDirs, hfail]
  · intro p msg items
    exact ⟨rfl, rfl⟩

/-- Witness for C9's amended statement at a concrete failing directory. -/
theorem walk_error_immediate_witness :
    walkSources 1 [SourceDir.mk "d1" [WalkItem.accessError "/d1/x" false "io error"],
        SourceDir.mk "d3" [WalkItem.entry (FsEntry.mk "/d3/b.mp3" true 100)]] =
      .error "error walking directory d1: error accessing /d1/x: io error" ∧
    walkDir 1 [WalkItem.accessError "/sub" true "denied",
        WalkItem.entry (FsEntry.mk "/d/c.mp3" true 100)] = .ok ["/d/c.mp3"] := by
  have h := @walk_error_immediate 1
    (SourceDir.mk "d1" [WalkItem.accessError "/d1/x" false "io error"])
    [SourceDir.mk "d3" [WalkItem.entry (FsEntry.mk "/d3/b.mp3" true 100)]]
    "error accessing /d1/x: io error"
    (show walkDir 1 [WalkItem.accessError "/d1/x" false "io error"] =
      .error "error accessing /d1/x: io error" from rfl)
  refine ⟨h.1.1, ?_⟩
  rw [(h.2 "/sub" "denied" [WalkItem.entry (FsEntry.mk "/d/c.mp3" true 100)]).2]
  rfl

/-! ## Ordering of deletion and reporting (C10) -/

/-- Counterexample to C10: with deletion enabled and no target directory,
the deletion of the file happens strictly before the report write in the
tail of `run` — the report has not been produced when the file is deleted. -/
theorem delete_before_report_counterexample :
    runEvents false true [FileRec.mk "a.mp3" "/a.mp3" "h" 5 []] =
      [RunEvent.deleteEvent "/a.mp3", RunEvent.reportEvent] ∧
    (runEvents false true [FileRec.mk "a.mp3" "/a.mp3" "h" 5 []]).indexOf
        (RunEvent.deleteEvent "/a.mp3") <
      (runEvents false true [FileRec.mk "a.mp3" "/a.mp3" "h" 5 []]).indexOf
        RunEvent.reportEvent :=
  ⟨rfl, by decide⟩

/-- C10 amended: in the tail of `run` the report write is the last action —
copies come first, then (when enabled) the deletions, and the report is
written only after all deletions; so at the moment a file is deleted the
report has not yet been produced. -/
theorem report_written_last (t d : Bool) (output : List FileRec) :
    runEvents t d output =
      ((if t then output.map (fun f => RunEvent.copyEvent f.path) else []) ++
        (if d then (deleteTraversal output).map RunEvent.deleteEvent else [])) ++
      [RunEvent.reportEvent] ∧
    RunEvent.reportEvent ∉
      (if t then output.map (fun f => RunEvent.copyEvent f.path) else []) ++
        (if d then (deleteTraversal output).map RunEvent.deleteEvent else []) := by
  constructor
  · simp [runEvents, List.append_assoc]
  · intro hmem
    rcases List.mem_append.1 hmem with h | h
    · cases t <;> simp at h
    · cases d <;> simp at h

end DedupMusic
